import Mathlib

/-!
Shallow embedding of the core logic of the Rock/Scissors/Paper framework
(`src/rsp/rsp.py`): choice-set validation (`GameOptions.validate_choices`),
the derived selection-key maps (`GameOptions._map_initial_to_name`,
`GameOptions.reverse_choice_map`), the cyclic dominance map
(`GameOptions._map_cyclic_hierarchy`), hand construction and outcome
resolution (`Hand.validate_choice`, `Hand.beats`, `Hand.__eq__`, `main`),
and the factory rewiring of hand properties
(`HandsFactory._update_hand_properties`).
-/

set_option autoImplicit false

namespace RSP

/-- The empty string, used as the (never-reached) default of list lookups. -/
def nullStr : String := ""

/-- One element of the tuple passed to `validate_choices`.  Elements are
either Python strings or some non-string value (such as the integer `42`);
Python equality between a string and a non-string is `False`, as here. -/
inductive Choice where
  | str (s : String)
  | intVal (n : Int)
deriving DecidableEq, Repr

/-- The argument of `validate_choices`: the elements together with whether
the container is a Python `tuple` (the code begins with an
`isinstance(choices, tuple)` check). -/
structure PySeq where
  isTuple : Bool
  elems : List Choice
deriving DecidableEq, Repr

instance instDecEqExcept {ε α : Type} [DecidableEq ε] [DecidableEq α] :
    DecidableEq (Except ε α) := fun x y =>
  match x, y with
  | Except.ok a, Except.ok b =>
    if h : a = b then isTrue (by rw [h])
    else isFalse (fun hc => h (Except.ok.inj hc))
  | Except.ok _, Except.error _ => isFalse (fun hc => Except.noConfusion hc)
  | Except.error _, Except.ok _ => isFalse (fun hc => Except.noConfusion hc)
  | Except.error a, Except.error b =>
    if h : a = b then isTrue (by rw [h])
    else isFalse (fun hc => h (Except.error.inj hc))

/-- The exceptions `validate_choices` can raise, one constructor per raise
site, in source order: `TypeError` for a non-tuple container; `ValueError`
for fewer than 3 choices; `ValueError` for an even count; `ValueError` for
duplicate choices; `TypeError` for a non-string element; `ValueError` for a
repeated (case-normalized) first letter.  `indexErrorEmptyName` is the
`IndexError` that `choice[0]` raises on an empty-string element - an
exception type the function's own docstring does not admit. -/
inductive PyErr where
  | typeErrorNotTuple
  | valueErrorTooFew
  | valueErrorNotOdd
  | valueErrorDuplicate
  | typeErrorNotString
  | valueErrorFirstLetter
  | indexErrorEmptyName
deriving DecidableEq, Repr

/-- The per-element loop of `validate_choices` (rsp.py lines 118-126):
for each choice, first the `isinstance(choice, str)` check, then the
evaluation of `choice[0]` (raising `IndexError` on an empty string), then
the case-normalized first-letter uniqueness check against the letters
`seen` so far. -/
def firstLetterLoop : List Choice → List Char → Except PyErr Unit
  | [], _ => Except.ok ()
  | Choice.intVal _ :: _, _ => Except.error PyErr.typeErrorNotString
  | Choice.str s :: rest, seen =>
    match s.toList with
    | [] => Except.error PyErr.indexErrorEmptyName
    | c :: _ =>
      if c.toUpper ∈ seen then Except.error PyErr.valueErrorFirstLetter
      else firstLetterLoop rest (c.toUpper :: seen)

/-- `GameOptions.validate_choices` (rsp.py lines 79-128).  Checks, in
source order: the container is a tuple; at least 3 elements; an odd number
of elements; no duplicate elements (`len(choices) != len(set(choices))`,
the set size being the number of distinct elements); then per element, in
input order, the string check and the unique-first-letter check.  On
success the input tuple is returned unchanged. -/
def validate_choices (s : PySeq) : Except PyErr (List Choice) :=
  if s.isTuple = false then Except.error PyErr.typeErrorNotTuple
  else if s.elems.length < 3 then Except.error PyErr.valueErrorTooFew
  else if s.elems.length % 2 = 0 then Except.error PyErr.valueErrorNotOdd
  else if s.elems.dedup.length ≠ s.elems.length then Except.error PyErr.valueErrorDuplicate
  else
    match firstLetterLoop s.elems [] with
    | Except.error e => Except.error e
    | Except.ok _ => Except.ok s.elems

/-- Wrap a list of name strings as the tuple argument of `validate_choices`. -/
def strNames (names : List String) : PySeq :=
  ⟨true, names.map Choice.str⟩

/-- A list of names is a valid game configuration when `validate_choices`
accepts the corresponding tuple of strings (as `GameOptions.__init__` does
before deriving any map). -/
def validOptions (names : List String) : Bool :=
  match validate_choices (strNames names) with
  | Except.ok _ => true
  | Except.error _ => false

example : validOptions ["Rock", "Paper", "Scissors"] = true := by decide

example : validate_choices (strNames ["Quit", "Paper", "Scissors"]) =
    Except.ok ((["Quit", "Paper", "Scissors"]).map Choice.str) := by decide

example : validate_choices (strNames ["", "Paper", "Scissors"]) =
    Except.error PyErr.indexErrorEmptyName := by decide

example : validate_choices ⟨true, [Choice.str "Rock", Choice.str "Rock", Choice.intVal 42]⟩ =
    Except.error PyErr.valueErrorDuplicate := by decide

/-- The case-normalized first character of a name: `name[0].upper()`.
Used only on names accepted by `validate_choices`, which are non-empty,
so the default is never reached. -/
def firstUpper (s : String) : Char :=
  (s.toList.headD 'A').toUpper

/-- A selection key as the one-character string `name[0].upper()`. -/
def keyStr (s : String) : String :=
  String.mk [firstUpper s]

/-- `GameOptions.generate_choice_keys` (rsp.py line 136): the menu key of
each choice, in order. -/
def choice_keys (names : List String) : List String :=
  names.map keyStr

/-- `GameOptions._map_initial_to_name` (rsp.py lines 183-185), the dict
`{name[0].upper(): name for name in names}`, as its insertion sequence.
Lookups use `pyDictGet` (later insertions of an equal key win, as in a
Python dict); validation makes the keys distinct. -/
def choice_map (names : List String) : List (String × String) :=
  names.map (fun n => (keyStr n, n))

/-- `GameOptions.reverse_choice_map` (rsp.py lines 165-173), the dict
`{name: key for key, name in choice_map.items()}`.  Validation makes the
keys of `choice_map` distinct, so its items are exactly the pairs of the
insertion sequence, flipped. -/
def reverse_choice_map (names : List String) : List (String × String) :=
  (choice_map names).map (fun p => (p.2, p.1))

/-- Python dict lookup on an insertion sequence: the value of the latest
insertion whose key matches (later assignments to a key overwrite earlier
ones); `none` models a `KeyError`. -/
def pyDictGet {α : Type} : List (String × α) → String → Option α
  | [], _ => none
  | (k, v) :: rest, key =>
    match pyDictGet rest key with
    | some w => some w
    | none => if k = key then some v else none

/-- Python sequence indexing `names[e]` for `-len ≤ e < len`: a negative
index counts from the end.  `_map_cyclic_hierarchy` only evaluates it in
that range, so the out-of-range `IndexError` branch is never reached and
the default stands in for it. -/
def pyIndex (names : List String) (e : Int) : String :=
  if e < 0 then names.getD (e + names.length).toNat nullStr
  else names.getD e.toNat nullStr

/-- `number_of_beaten` (rsp.py line 189): `(len(names) - 1) // 2`. -/
def beatenCount (names : List String) : Nat :=
  (names.length - 1) / 2

/-- The list `[names[idx - j - 1] for j in range(number_of_beaten)]`
(rsp.py line 192): the choices beaten by the choice at index `idx`. -/
def beatenList (names : List String) (idx : Nat) : List String :=
  (List.range (beatenCount names)).map
    (fun (j : Nat) => pyIndex names ((idx : Int) - (j : Int) - 1))

/-- The loop of `_map_cyclic_hierarchy` over `enumerate(names)`, building
the dict insertion sequence from index `i0` onwards. -/
def hierarchyAux (names : List String) : Nat → List String → List (String × List String)
  | _, [] => []
  | i0, c :: rest => (c, beatenList names i0) :: hierarchyAux names (i0 + 1) rest

/-- `GameOptions._map_cyclic_hierarchy` (rsp.py lines 187-194): the dict
`{choice: beaten-list}` as its insertion sequence. -/
def hierarchyEntries (names : List String) : List (String × List String) :=
  hierarchyAux names 0 names

/-- `GameOptions.is_beaten_by` property (rsp.py lines 176-181): dict lookup
in the cyclic hierarchy map; `none` models a `KeyError`. -/
def is_beaten_by (names : List String) (name : String) : Option (List String) :=
  pyDictGet (hierarchyEntries names) name

/-- Modelled from the spec for comparison with `beatenList`: the name at
index `i` defeats the names at positions `(i-1) mod N, ..., (i-k) mod N`,
in that order (closest predecessor first), with `k = (N-1)/2`. -/
def specDominanceList (names : List String) (i : Nat) : List String :=
  (List.range ((names.length - 1) / 2)).map
    (fun (j : Nat) =>
      names.getD (((i : Int) - ((j : Int) + 1)) % (names.length : Int)).toNat nullStr)

/-- `Hand.beats` (rsp.py lines 314-323) for directly constructed hands at
name level: `other.name in other.is_beaten_by[self.name]`, where
`is_beaten_by` is the shared cyclic hierarchy dict. -/
def defeats (names : List String) (a b : String) : Bool :=
  match is_beaten_by names a with
  | some losers => decide (b ∈ losers)
  | none => false

/-- The three round results announced by `main` (rsp.py lines 426-439). -/
inductive Outcome where
  | WIN
  | LOSE
  | DRAW
deriving DecidableEq, Repr

/-- The round logic of `main` (rsp.py lines 430-439) for two directly
constructed hands with the given names: `Hand.__eq__` compares names,
then `player.beats(robo)` decides WIN against LOSE.  `none` models the
`KeyError` a name outside the dict would raise; in the game both names
come from the validated set. -/
def resolveOutcome (names : List String) (first second : String) : Option Outcome :=
  if first = second then some Outcome.DRAW
  else
    match is_beaten_by names first with
    | some losers => some (if second ∈ losers then Outcome.WIN else Outcome.LOSE)
    | none => none

/-- The fields `Hand.validate_choice` assigns (rsp.py lines 296-312). -/
structure HandData where
  name : String
  choice_key : String
deriving DecidableEq, Repr

/-- `Hand.validate_choice` (rsp.py lines 296-312): a selection key is
resolved through `choice_map`, a full name through `reverse_choice_map`,
anything else raises `ValueError` (`none` here).  The dict lookups inside
the branches cannot fail: the tested key sets are exactly the dict key
sets. -/
def validate_choice (names : List String) (choice : String) : Option HandData :=
  if choice ∈ choice_keys names then
    (pyDictGet (choice_map names) choice).map (fun nm => ⟨nm, choice⟩)
  else if choice ∈ names then
    (pyDictGet (reverse_choice_map names) choice).map (fun key => ⟨choice, key⟩)
  else none

/-- The dynamic value of the `is_beaten_by` attribute of a `Hand`:
`Hand.__init__` (rsp.py line 291) stores the name-keyed dict, while
`HandsFactory._update_hand_properties` (rsp.py lines 368-377) overwrites
it with a list of `Hand` objects (here identified by their names, which is
how `Hand.__eq__` compares them). -/
inductive BeatenByField where
  | dictVal (d : List (String × List String))
  | listVal (hs : List String)
deriving DecidableEq, Repr

/-- A `Hand` object (rsp.py lines 269-329): name, choice key, and the
dynamically typed `is_beaten_by` attribute. -/
structure HandObj where
  name : String
  choice_key : String
  is_beaten_by : BeatenByField
deriving DecidableEq, Repr

/-- The exceptions `Hand.beats` can raise: `KeyError` when `self.name` is
not a key of the dict, and `TypeError` when `other.is_beaten_by` is a list
(a list cannot be subscripted by the string `self.name`). -/
inductive PyExn where
  | keyError
  | typeError
deriving DecidableEq, Repr

/-- `Hand.beats` (rsp.py lines 314-323) on `Hand` objects:
`other.name in other.is_beaten_by[self.name]`.  The subscript succeeds
only when `other.is_beaten_by` is still the name-keyed dict. -/
def hand_beats (self other : HandObj) : Except PyExn Bool :=
  match other.is_beaten_by with
  | BeatenByField.dictVal d =>
    match pyDictGet d self.name with
    | some losers => Except.ok (decide (other.name ∈ losers))
    | none => Except.error PyExn.keyError
  | BeatenByField.listVal _ => Except.error PyExn.typeError

/-- `Hand.__init__` (rsp.py lines 280-294): resolve the choice and store
the shared `options.is_beaten_by` dict in the hand's attribute. -/
def mkHand (names : List String) (choice : String) : Option HandObj :=
  (validate_choice names choice).map
    (fun h => ⟨h.name, h.choice_key, BeatenByField.dictVal (hierarchyEntries names)⟩)

/-- A hand as produced by `HandsFactory` (rsp.py lines 332-377): after
`_update_hand_properties`, its `is_beaten_by` attribute is the list of
`Hand` objects built by `_get_beaten_by_list` from
`self._beaten_by[hand.name]`; the factory only builds hands from names of
the validated set, so that dict lookup cannot fail and the default is
never reached. -/
def factoryHand (names : List String) (choice : String) : Option HandObj :=
  (mkHand names choice).map
    (fun h => ⟨h.name, h.choice_key,
      BeatenByField.listVal ((is_beaten_by names h.name).getD [])⟩)

example : hierarchyEntries ["Rock", "Paper", "Scissors"] =
    [("Rock", ["Scissors"]), ("Paper", ["Rock"]), ("Scissors", ["Paper"])] := by decide

example : hierarchyEntries ["Rock", "Batman", "Paper", "Lizard", "Scissors"] =
    [("Rock", ["Scissors", "Lizard"]), ("Batman", ["Rock", "Scissors"]),
     ("Paper", ["Batman", "Rock"]), ("Lizard", ["Paper", "Batman"]),
     ("Scissors", ["Lizard", "Paper"])] := by decide

example : specDominanceList ["Rock", "Paper", "Scissors"] 0 = ["Scissors"] := by decide

example : resolveOutcome ["Rock", "Paper", "Scissors"] "Rock" "Scissors" = some Outcome.WIN := by
  decide

example : resolveOutcome ["Rock", "Paper", "Scissors"] "Scissors" "Rock" = some Outcome.LOSE := by
  decide

example : validate_choice ["Rock", "Paper", "Scissors"] "R" = some ⟨"Rock", "R"⟩ := by decide

example : validate_choice ["Rock", "Paper", "Scissors"] "Rock" = some ⟨"Rock", "R"⟩ := by decide

example : validate_choice ["Rock", "Paper", "Scissors"] "Banana" = none := by decide

example : factoryHand ["Rock", "Paper", "Scissors"] "Rock" =
    some ⟨"Rock", "R", BeatenByField.listVal ["Scissors"]⟩ := by decide

/-! ### Arithmetic and indexing helper lemmas -/

/-- A natural below `2 * N` reduced mod `N` is itself or itself minus `N`. -/
lemma mod_two_cases (t N : ℕ) (h2 : t < 2 * N) :
    (t < N ∧ t % N = t) ∨ (N ≤ t ∧ t % N = t - N) := by
  rcases Nat.lt_or_ge t N with h | h
  · exact Or.inl ⟨h, Nat.mod_eq_of_lt h⟩
  · exact Or.inr ⟨h, by rw [Nat.mod_eq_sub_mod h, Nat.mod_eq_of_lt (by omega)]⟩

/-- Python's negative indexing `names[i - j - 1]`, in the range where
`_map_cyclic_hierarchy` uses it, is indexing at `(i + N - (j+1)) mod N`. -/
lemma pyIndex_eq (names : List String) (i j : ℕ) (hi : i < names.length)
    (hj : j + 1 ≤ names.length) :
    pyIndex names ((i : Int) - (j : Int) - 1) =
      names.getD ((i + names.length - (j + 1)) % names.length) nullStr := by
  unfold pyIndex
  by_cases hneg : (i : Int) - (j : Int) - 1 < 0
  · rw [if_pos hneg]
    have h1 : ((i : Int) - (j : Int) - 1 + (names.length : Int)).toNat
        = (i + names.length - (j + 1)) % names.length := by
      rw [Nat.mod_eq_of_lt (by omega)]
      omega
    rw [h1]
  · rw [if_neg hneg]
    have h1 : ((i : Int) - (j : Int) - 1).toNat
        = (i + names.length - (j + 1)) % names.length := by
      have hstep : i + names.length - (j + 1) = (i - (j + 1)) + names.length := by omega
      rw [hstep, Nat.add_mod_right, Nat.mod_eq_of_lt (by omega)]
      omega
    rw [h1]

/-- The beaten-list of the choice at index `i`, rewritten with positions
reduced mod `N`. -/
lemma beatenList_eq (names : List String) (i : ℕ) (hi : i < names.length) :
    beatenList names i = (List.range (beatenCount names)).map
      (fun j => names.getD ((i + names.length - (j + 1)) % names.length) nullStr) := by
  unfold beatenList
  apply List.map_congr_left
  intro j hj
  have hjk : j < beatenCount names := List.mem_range.mp hj
  have hj1 : j + 1 ≤ names.length := by
    unfold beatenCount at hjk
    omega
  exact pyIndex_eq names i j hi hj1

/-- The spec's dominance formula, rewritten with the same positions. -/
lemma specDominanceList_eq (names : List String) (i : ℕ) (hi : i < names.length) :
    specDominanceList names i = (List.range (beatenCount names)).map
      (fun j => names.getD ((i + names.length - (j + 1)) % names.length) nullStr) := by
  unfold specDominanceList beatenCount
  apply List.map_congr_left
  intro j hj
  have hjk : j < (names.length - 1) / 2 := List.mem_range.mp hj
  have hj1 : j + 1 ≤ names.length := by omega
  congr 1
  have h1 : (i : Int) - ((j : Int) + 1)
      = ((i + names.length - (j + 1) : ℕ) : Int) - (names.length : Int) := by omega
  have h2 := Int.add_mul_emod_self_left
    (((i + names.length - (j + 1) : ℕ) : Int)) ((names.length : Int)) (-1)
  have h3 : ((i + names.length - (j + 1) : ℕ) : Int) + (names.length : Int) * (-1)
      = ((i + names.length - (j + 1) : ℕ) : Int) - (names.length : Int) := by ring
  rw [h1, ← h3, h2, Int.ofNat_mod_ofNat, Int.toNat_ofNat]

/-! ### Dict lookup lemmas -/

lemma pyDictGet_eq_none {α : Type} (d : List (String × α)) (key : String)
    (h : key ∉ d.map Prod.fst) : pyDictGet d key = none := by
  induction d with
  | nil => rfl
  | cons p rest ih =>
    obtain ⟨k, v⟩ := p
    simp only [List.map_cons, List.mem_cons, not_or] at h
    simp only [pyDictGet, ih h.2]
    rw [if_neg (fun hk => h.1 hk.symm)]

lemma pyDictGet_isSome {α : Type} (d : List (String × α)) (key : String)
    (h : key ∈ d.map Prod.fst) : (pyDictGet d key).isSome = true := by
  induction d with
  | nil => simp at h
  | cons p rest ih =>
    obtain ⟨k, v⟩ := p
    simp only [List.map_cons, List.mem_cons] at h
    simp only [pyDictGet]
    cases hr : pyDictGet rest key with
    | some w => rfl
    | none =>
      rcases h with h1 | h2
      · rw [if_pos h1.symm]
        rfl
      · have := ih h2
        rw [hr] at this
        cases this

lemma pyDictGet_mem {α : Type} (d : List (String × α)) (key : String) (v : α)
    (h : pyDictGet d key = some v) : (key, v) ∈ d := by
  induction d with
  | nil => cases h
  | cons p rest ih =>
    obtain ⟨k, w⟩ := p
    simp only [pyDictGet] at h
    cases hr : pyDictGet rest key with
    | some u =>
      rw [hr] at h
      cases h
      exact List.mem_cons_of_mem _ (ih hr)
    | none =>
      rw [hr] at h
      by_cases hk : k = key
      · rw [if_pos hk] at h
        cases h
        subst hk
        exact List.mem_cons_self _ _
      · rw [if_neg hk] at h
        cases h

/-- Lookup in an insertion sequence with distinct keys finds the unique
entry holding the key. -/
lemma pyDictGet_pairs {α : Type} (d : List (String × α))
    (hkeys : (d.map Prod.fst).Nodup) (key : String) (v : α)
    (hmem : (key, v) ∈ d) : pyDictGet d key = some v := by
  induction d with
  | nil => cases hmem
  | cons p rest ih =>
    obtain ⟨k, w⟩ := p
    simp only [List.map_cons, List.nodup_cons] at hkeys
    rcases List.mem_cons.mp hmem with h1 | h2
    · cases h1
      have hnone : pyDictGet rest key = none := by
        apply pyDictGet_eq_none
        exact hkeys.1
      simp [pyDictGet, hnone]
    · have hr := ih hkeys.2 h2
      simp only [pyDictGet, hr]

/-! ### Hierarchy map lookup -/

lemma hierarchyAux_keys (names : List String) (l : List String) (i0 : ℕ) :
    (hierarchyAux names i0 l).map Prod.fst = l := by
  induction l generalizing i0 with
  | nil => rfl
  | cons c rest ih => simp [hierarchyAux, ih]

lemma hierarchyAux_lookup (names : List String) (l : List String) (i0 : ℕ)
    (hnd : l.Nodup) (j : ℕ) (hj : j < l.length) :
    pyDictGet (hierarchyAux names i0 l) (l.get ⟨j, hj⟩)
      = some (beatenList names (i0 + j)) := by
  induction l generalizing i0 j with
  | nil => simp at hj
  | cons c rest ih =>
    rcases List.nodup_cons.mp hnd with ⟨hc, hrest⟩
    cases j with
    | zero =>
      have hnone : pyDictGet (hierarchyAux names (i0 + 1) rest) c = none := by
        apply pyDictGet_eq_none
        rw [hierarchyAux_keys]
        exact hc
      simp [hierarchyAux, List.get, pyDictGet, hnone]
    | succ j2 =>
      have hj2 : j2 < rest.length := by simpa using hj
      have ihres := ih (i0 + 1) hrest j2 hj2
      have harith : i0 + (j2 + 1) = (i0 + 1) + j2 := by omega
      rw [harith]
      simp only [hierarchyAux, List.get, pyDictGet, ihres]

/-- On a duplicate-free choice list, `is_beaten_by` maps the choice at
index `i` to its beaten-list. -/
lemma is_beaten_by_get (names : List String) (hnd : names.Nodup) (i : ℕ)
    (hi : i < names.length) :
    is_beaten_by names (names.get ⟨i, hi⟩) = some (beatenList names i) := by
  have h := hierarchyAux_lookup names names 0 hnd i hi
  rw [Nat.zero_add] at h
  exact h

/-! ### Facts extracted from a successful validation -/

lemma validate_ok (s : PySeq) (r : List Choice) (h : validate_choices s = Except.ok r) :
    s.isTuple = true ∧ 3 ≤ s.elems.length ∧ s.elems.length % 2 = 1 ∧
      s.elems.Nodup ∧ firstLetterLoop s.elems [] = Except.ok () ∧ r = s.elems := by
  unfold validate_choices at h
  by_cases h1 : s.isTuple = false
  · rw [if_pos h1] at h
    cases h
  rw [if_neg h1] at h
  by_cases h2 : s.elems.length < 3
  · rw [if_pos h2] at h
    cases h
  rw [if_neg h2] at h
  by_cases h3 : s.elems.length % 2 = 0
  · rw [if_pos h3] at h
    cases h
  rw [if_neg h3] at h
  by_cases h4 : s.elems.dedup.length ≠ s.elems.length
  · rw [if_pos h4] at h
    cases h
  rw [if_neg h4] at h
  have hnd : s.elems.Nodup := by
    have hlen : s.elems.dedup.length = s.elems.length := by omega
    have hded : s.elems.dedup = s.elems :=
      (List.dedup_sublist s.elems).eq_of_length hlen
    rw [← hded]
    exact List.nodup_dedup s.elems
  cases hfl : firstLetterLoop s.elems [] with
  | error e =>
    rw [hfl] at h
    cases h
  | ok u =>
    rw [hfl] at h
    cases h
    cases u
    exact ⟨by revert h1; cases s.isTuple <;> simp, by omega, by omega, hnd,
      rfl, rfl⟩

lemma firstLetterLoop_ok (l : List String) :
    ∀ seen : List Char, firstLetterLoop (l.map Choice.str) seen = Except.ok () →
      (∀ n ∈ l, n.toList ≠ []) ∧ (l.map firstUpper).Nodup ∧
        (∀ n ∈ l, firstUpper n ∉ seen) := by
  induction l with
  | nil =>
    intro seen _
    exact ⟨by simp, by simp, by simp⟩
  | cons s rest ih =>
    intro seen hok
    rw [List.map_cons] at hok
    rcases hts : s.toList with _ | ⟨c, tl⟩
    · simp only [firstLetterLoop, hts] at hok
      exact Except.noConfusion hok
    · simp only [firstLetterLoop, hts] at hok
      by_cases hmem : c.toUpper ∈ seen
      · rw [if_pos hmem] at hok
        cases hok
      · rw [if_neg hmem] at hok
        obtain ⟨h1, h2, h3⟩ := ih (c.toUpper :: seen) hok
        have hfu : firstUpper s = c.toUpper := by
          unfold firstUpper
          rw [hts]
          rfl
        refine ⟨?_, ?_, ?_⟩
        · intro n hn
          rcases List.mem_cons.mp hn with rfl | hn2
          · rw [hts]
            simp
          · exact h1 n hn2
        · rw [List.map_cons, List.nodup_cons]
          refine ⟨?_, h2⟩
          rw [hfu]
          intro hcontra
          rcases List.mem_map.mp hcontra with ⟨m, hm, hfm⟩
          have := h3 m hm
          rw [hfm] at this
          exact this (List.mem_cons_self _ _)
        · intro n hn
          rcases List.mem_cons.mp hn with rfl | hn2
          · rw [hfu]
            exact hmem
          · intro hcontra
            exact h3 n hn2 (List.mem_cons_of_mem _ hcontra)

/-- The structural facts a validated name list satisfies: at least three
names, an odd count, pairwise distinct names, distinct case-normalized
first letters, and no empty name. -/
lemma valid_facts (names : List String) (hv : validOptions names = true) :
    3 ≤ names.length ∧ names.length % 2 = 1 ∧ names.Nodup ∧
      (names.map firstUpper).Nodup ∧ (∀ n ∈ names, n.toList ≠ []) := by
  unfold validOptions at hv
  cases hval : validate_choices (strNames names) with
  | error e =>
    rw [hval] at hv
    cases hv
  | ok r =>
    obtain ⟨-, hlen, hodd, hnd, hloop, -⟩ := validate_ok _ _ hval
    simp only [strNames, List.length_map] at hlen hodd
    have hnd2 : names.Nodup := (List.Nodup.of_map Choice.str) (by simpa [strNames] using hnd)
    obtain ⟨h1, h2, -⟩ := firstLetterLoop_ok names [] (by simpa [strNames] using hloop)
    exact ⟨hlen, hodd, hnd2, h2, h1⟩

/-! ### The cyclic tournament at index level -/

/-- Index `i2` is a beaten position of index `i` exactly when the cyclic
distance from `i` back to `i2` is between `1` and `k`. -/
lemma core_bpos_iff (N k i i2 : ℕ) (hN : N = 2 * k + 1) (hk : 1 ≤ k)
    (hi : i < N) (hi2 : i2 < N) :
    (∃ j, j < k ∧ (i + N - (j + 1)) % N = i2) ↔
      (1 ≤ (i + N - i2) % N ∧ (i + N - i2) % N ≤ k) := by
  constructor
  · rintro ⟨j, hj, rfl⟩
    rcases mod_two_cases (i + N - (j + 1)) N (by omega) with ⟨a1, a2⟩ | ⟨a1, a2⟩ <;>
      rcases mod_two_cases (i + N - (i + N - (j + 1)) % N) N (by omega) with
        ⟨b1, b2⟩ | ⟨b1, b2⟩ <;>
      omega
  · rintro ⟨hd1, hd2⟩
    refine ⟨(i + N - i2) % N - 1, by omega, ?_⟩
    rcases mod_two_cases (i + N - i2) N (by omega) with ⟨a1, a2⟩ | ⟨a1, a2⟩ <;>
      rcases mod_two_cases (i + N - ((i + N - i2) % N - 1 + 1)) N (by omega) with
        ⟨b1, b2⟩ | ⟨b1, b2⟩ <;>
      omega

/-- Index `i2` has index `i` among its beaten positions exactly when `i2`
is a cyclic successor of `i` by at most `k` steps. -/
lemma core_succ_iff (N k i i2 : ℕ) (hN : N = 2 * k + 1) (hk : 1 ≤ k)
    (hi : i < N) (hi2 : i2 < N) :
    (∃ j, j < k ∧ (i + (j + 1)) % N = i2) ↔
      (1 ≤ (i2 + N - i) % N ∧ (i2 + N - i) % N ≤ k) := by
  constructor
  · rintro ⟨j, hj, rfl⟩
    rcases mod_two_cases (i + (j + 1)) N (by omega) with ⟨a1, a2⟩ | ⟨a1, a2⟩ <;>
      rcases mod_two_cases ((i + (j + 1)) % N + N - i) N (by omega) with
        ⟨b1, b2⟩ | ⟨b1, b2⟩ <;>
      omega
  · rintro ⟨hd1, hd2⟩
    refine ⟨(i2 + N - i) % N - 1, by omega, ?_⟩
    rcases mod_two_cases (i2 + N - i) N (by omega) with ⟨a1, a2⟩ | ⟨a1, a2⟩ <;>
      rcases mod_two_cases (i + ((i2 + N - i) % N - 1 + 1)) N (by omega) with
        ⟨b1, b2⟩ | ⟨b1, b2⟩ <;>
      omega

/-- The set of beaten positions of an index has exactly `k` elements. -/
lemma card_bpos (N k i : ℕ) (hN : N = 2 * k + 1) (hk : 1 ≤ k) (hi : i < N) :
    ((Finset.range N).filter
      (fun i2 => 1 ≤ (i + N - i2) % N ∧ (i + N - i2) % N ≤ k)).card = k := by
  have himg : (Finset.range N).filter
      (fun i2 => 1 ≤ (i + N - i2) % N ∧ (i + N - i2) % N ≤ k)
      = (Finset.range k).image (fun j => (i + N - (j + 1)) % N) := by
    ext i2
    simp only [Finset.mem_filter, Finset.mem_range, Finset.mem_image]
    constructor
    · rintro ⟨hi2, hc⟩
      exact (core_bpos_iff N k i i2 hN hk hi hi2).mpr hc
    · rintro ⟨j, hj, hje⟩
      have hi2 : i2 < N := by
        rw [← hje]
        exact Nat.mod_lt _ (by omega)
      exact ⟨hi2, (core_bpos_iff N k i i2 hN hk hi hi2).mp ⟨j, hj, hje⟩⟩
  rw [himg, Finset.card_image_of_injOn, Finset.card_range]
  intro j1 hj1 j2 hj2 he
  simp only [Finset.coe_range, Set.mem_Iio] at hj1 hj2
  have he2 : (i + N - (j1 + 1)) % N = (i + N - (j2 + 1)) % N := he
  rcases mod_two_cases (i + N - (j1 + 1)) N (by omega) with ⟨a1, a2⟩ | ⟨a1, a2⟩ <;>
    rcases mod_two_cases (i + N - (j2 + 1)) N (by omega) with ⟨b1, b2⟩ | ⟨b1, b2⟩ <;>
    omega

/-- The set of positions that beat an index has exactly `k` elements. -/
lemma card_succ (N k i : ℕ) (hN : N = 2 * k + 1) (hk : 1 ≤ k) (hi : i < N) :
    ((Finset.range N).filter
      (fun i2 => 1 ≤ (i2 + N - i) % N ∧ (i2 + N - i) % N ≤ k)).card = k := by
  have himg : (Finset.range N).filter
      (fun i2 => 1 ≤ (i2 + N - i) % N ∧ (i2 + N - i) % N ≤ k)
      = (Finset.range k).image (fun j => (i + (j + 1)) % N) := by
    ext i2
    simp only [Finset.mem_filter, Finset.mem_range, Finset.mem_image]
    constructor
    · rintro ⟨hi2, hc⟩
      exact (core_succ_iff N k i i2 hN hk hi hi2).mpr hc
    · rintro ⟨j, hj, hje⟩
      have hi2 : i2 < N := by
        rw [← hje]
        exact Nat.mod_lt _ (by omega)
      exact ⟨hi2, (core_succ_iff N k i i2 hN hk hi hi2).mp ⟨j, hj, hje⟩⟩
  rw [himg, Finset.card_image_of_injOn, Finset.card_range]
  intro j1 hj1 j2 hj2 he
  simp only [Finset.coe_range, Set.mem_Iio] at hj1 hj2
  have he2 : (i + (j1 + 1)) % N = (i + (j2 + 1)) % N := he
  rcases mod_two_cases (i + (j1 + 1)) N (by omega) with ⟨a1, a2⟩ | ⟨a1, a2⟩ <;>
    rcases mod_two_cases (i + (j2 + 1)) N (by omega) with ⟨b1, b2⟩ | ⟨b1, b2⟩ <;>
    omega

/-! ### Name-level bridge lemmas -/

lemma getD_eq_get_of_lt (names : List String) (i : ℕ) (hi : i < names.length) :
    names.getD i nullStr = names.get ⟨i, hi⟩ := by
  rw [List.getD_eq_getElem names nullStr hi]
  rfl

lemma getD_mem_of_lt (names : List String) (i : ℕ) (hi : i < names.length) :
    names.getD i nullStr ∈ names := by
  rw [getD_eq_get_of_lt names i hi]
  exact List.get_mem names i hi

lemma getD_inj (names : List String) (hnd : names.Nodup) (i1 i2 : ℕ)
    (h1 : i1 < names.length) (h2 : i2 < names.length)
    (he : names.getD i1 nullStr = names.getD i2 nullStr) : i1 = i2 := by
  rw [List.getD_eq_getElem names nullStr h1, List.getD_eq_getElem names nullStr h2] at he
  exact (List.Nodup.getElem_inj_iff hnd).mp he

/-- Membership in the beaten-list of index `i`, characterized by the cyclic
distance between the indices. -/
lemma mem_beaten_iff (names : List String) (hnd : names.Nodup)
    (hN : names.length = 2 * beatenCount names + 1) (hk : 1 ≤ beatenCount names)
    (i i2 : ℕ) (hi : i < names.length) (hi2 : i2 < names.length) :
    names.getD i2 nullStr ∈ beatenList names i ↔
      (1 ≤ (i + names.length - i2) % names.length ∧
        (i + names.length - i2) % names.length ≤ beatenCount names) := by
  rw [beatenList_eq names i hi]
  simp only [List.mem_map, List.mem_range]
  rw [← core_bpos_iff names.length (beatenCount names) i i2 hN hk hi hi2]
  constructor
  · rintro ⟨j, hj, hje⟩
    refine ⟨j, hj, ?_⟩
    exact getD_inj names hnd _ _ (Nat.mod_lt _ (by omega)) hi2 hje
  · rintro ⟨j, hj, hje⟩
    exact ⟨j, hj, by rw [hje]⟩

/-- `defeats` between the names at two indices, characterized by the cyclic
distance between the indices. -/
lemma defeats_getD_iff (names : List String) (hnd : names.Nodup)
    (hN : names.length = 2 * beatenCount names + 1) (hk : 1 ≤ beatenCount names)
    (i i2 : ℕ) (hi : i < names.length) (hi2 : i2 < names.length) :
    defeats names (names.getD i nullStr) (names.getD i2 nullStr) = true ↔
      (1 ≤ (i + names.length - i2) % names.length ∧
        (i + names.length - i2) % names.length ≤ beatenCount names) := by
  unfold defeats
  rw [getD_eq_get_of_lt names i hi, is_beaten_by_get names hnd i hi]
  simp only [decide_eq_true_eq]
  exact mem_beaten_iff names hnd hN hk i i2 hi hi2

/-- The names defeated by the name at index `i` are exactly `k` many. -/
lemma card_defeats_getD (names : List String) (hnd : names.Nodup)
    (hN : names.length = 2 * beatenCount names + 1) (hk : 1 ≤ beatenCount names)
    (i : ℕ) (hi : i < names.length) :
    (names.toFinset.filter
      (fun d => defeats names (names.getD i nullStr) d = true)).card
      = beatenCount names := by
  have hset : names.toFinset.filter
      (fun d => defeats names (names.getD i nullStr) d = true)
      = ((Finset.range names.length).filter
          (fun i2 => 1 ≤ (i + names.length - i2) % names.length ∧
            (i + names.length - i2) % names.length ≤ beatenCount names)).image
          (fun i2 => names.getD i2 nullStr) := by
    ext d
    simp only [Finset.mem_filter, List.mem_toFinset, Finset.mem_image, Finset.mem_range]
    constructor
    · rintro ⟨hdmem, hdef⟩
      obtain ⟨i2, hi2, hd⟩ := List.mem_iff_getElem.mp hdmem
      have hd2 : names.getD i2 nullStr = d := by
        rw [List.getD_eq_getElem names nullStr hi2, hd]
      rw [← hd2] at hdef
      exact ⟨i2, ⟨hi2, (defeats_getD_iff names hnd hN hk i i2 hi hi2).mp hdef⟩, hd2⟩
    · rintro ⟨i2, ⟨hi2, hcond⟩, hd⟩
      refine ⟨?_, ?_⟩
      · rw [← hd]
        exact getD_mem_of_lt names i2 hi2
      · rw [← hd]
        exact (defeats_getD_iff names hnd hN hk i i2 hi hi2).mpr hcond
  rw [hset, Finset.card_image_of_injOn, card_bpos names.length (beatenCount names) i hN hk hi]
  intro a ha b hb he
  simp only [Finset.coe_filter, Set.mem_setOf_eq, Finset.mem_range] at ha hb
  exact getD_inj names hnd a b ha.1 hb.1 he

/-- The names defeating the name at index `i` are exactly `k` many. -/
lemma card_defeated_getD (names : List String) (hnd : names.Nodup)
    (hN : names.length = 2 * beatenCount names + 1) (hk : 1 ≤ beatenCount names)
    (i : ℕ) (hi : i < names.length) :
    (names.toFinset.filter
      (fun d => defeats names d (names.getD i nullStr) = true)).card
      = beatenCount names := by
  have hset : names.toFinset.filter
      (fun d => defeats names d (names.getD i nullStr) = true)
      = ((Finset.range names.length).filter
          (fun i2 => 1 ≤ (i2 + names.length - i) % names.length ∧
            (i2 + names.length - i) % names.length ≤ beatenCount names)).image
          (fun i2 => names.getD i2 nullStr) := by
    ext d
    simp only [Finset.mem_filter, List.mem_toFinset, Finset.mem_image, Finset.mem_range]
    constructor
    · rintro ⟨hdmem, hdef⟩
      obtain ⟨i2, hi2, hd⟩ := List.mem_iff_getElem.mp hdmem
      have hd2 : names.getD i2 nullStr = d := by
        rw [List.getD_eq_getElem names nullStr hi2, hd]
      rw [← hd2] at hdef
      exact ⟨i2, ⟨hi2, (defeats_getD_iff names hnd hN hk i2 i hi2 hi).mp hdef⟩, hd2⟩
    · rintro ⟨i2, ⟨hi2, hcond⟩, hd⟩
      refine ⟨?_, ?_⟩
      · rw [← hd]
        exact getD_mem_of_lt names i2 hi2
      · rw [← hd]
        exact (defeats_getD_iff names hnd hN hk i2 i hi2 hi).mpr hcond
  rw [hset, Finset.card_image_of_injOn, card_succ names.length (beatenCount names) i hN hk hi]
  intro a ha b hb he
  simp only [Finset.coe_filter, Set.mem_setOf_eq, Finset.mem_range] at ha hb
  exact getD_inj names hnd a b ha.1 hb.1 he

/-! ### Further helper lemmas for the claim theorems -/

lemma bool_eq_false {x : Bool} (h : ¬ x = true) : x = false := by
  cases x
  · rfl
  · exact absurd rfl h

/-- The first branch of `resolveOutcome` not taken, the dict lookup made
explicit. -/
lemma resolveOutcome_eq_of_some (names : List String) (a b : String) (hab : a ≠ b)
    (l : List String) (hl : is_beaten_by names a = some l) :
    resolveOutcome names a b = some (if b ∈ l then Outcome.WIN else Outcome.LOSE) := by
  unfold resolveOutcome
  rw [if_neg hab, hl]

/-- A name never sits in its own beaten-list. -/
lemma defeats_self_eq_false (names : List String) (hnd : names.Nodup)
    (hN : names.length = 2 * beatenCount names + 1) (hk : 1 ≤ beatenCount names)
    (i : ℕ) (hi : i < names.length) :
    defeats names (names.getD i nullStr) (names.getD i nullStr) = false := by
  apply bool_eq_false
  intro hx
  have hcond := (defeats_getD_iff names hnd hN hk i i hi hi).mp hx
  have hz : (i + names.length - i) % names.length = 0 := by
    have h0 : i + names.length - i = names.length := by omega
    rw [h0, Nat.mod_self]
  omega

/-! ### Claim theorems -/

/-- C1 (amended): `validate_choices` performs no reserved-quit-key check;
a tuple whose names pass the implemented checks is returned as valid even
when a name's case-normalized first character is the quit token `Q` - in
particular `("Quit", "Paper", "Scissors")` is returned unchanged as a
valid choice set. -/
theorem c1_reserved_key_not_checked :
    validate_choices (strNames ["Quit", "Paper", "Scissors"]) =
      Except.ok ((["Quit", "Paper", "Scissors"]).map Choice.str) := by
  decide

/-- C1 counterexample: contrary to the claim, `validate_choices` accepts
`("Quit", "Paper", "Scissors")` - with reserved token `Q` - as a valid
choice set instead of failing with ReservedKeyKind. -/
theorem c1_counterexample :
    validOptions ["Quit", "Paper", "Scissors"] = true := by
  decide

/-- C2: on the tuple `("", "Paper", "Scissors")` the code does not fail
with a FormatKind validation error; evaluating `choice[0]` on the empty
string raises an `IndexError`, an exception type outside the
TypeError/ValueError contract of the function's docstring. -/
theorem c2_empty_name_crashes :
    validate_choices (strNames ["", "Paper", "Scissors"]) =
      Except.error PyErr.indexErrorEmptyName := by
  decide

/-- C3 counterexample: for `("Rock", "Rock", 42)` validation fails with
the duplicate error, not with the element-type error, refuting the claim
that the element-type check precedes the duplicate check. -/
theorem c3_counterexample :
    validate_choices ⟨true, [Choice.str "Rock", Choice.str "Rock", Choice.intVal 42]⟩ =
        Except.error PyErr.valueErrorDuplicate ∧
      validate_choices ⟨true, [Choice.str "Rock", Choice.str "Rock", Choice.intVal 42]⟩ ≠
        Except.error PyErr.typeErrorNotString := by
  decide

/-- C3 (amended): the container-type check is first, but the element-type
check runs inside the per-element loop after the arity, oddness and
duplicate checks: whenever the tuple passes the container and arity checks
and has a duplicate element, validation reports the duplicate error, even
if a non-string element is present. -/
theorem c3_duplicate_before_type (s : PySeq) (ht : s.isTuple = true)
    (h3 : 3 ≤ s.elems.length) (hodd : s.elems.length % 2 = 1)
    (hdup : ¬ s.elems.Nodup) :
    validate_choices s = Except.error PyErr.valueErrorDuplicate := by
  have hcond : s.elems.dedup.length ≠ s.elems.length := by
    intro heq
    have hded := (List.dedup_sublist s.elems).eq_of_length heq
    exact hdup (hded ▸ List.nodup_dedup s.elems)
  unfold validate_choices
  rw [if_neg (by simp [ht]), if_neg (by omega), if_neg (by omega), if_pos hcond]

/-- C3 witness: the amended ordering at the concrete input
`("Rock", "Rock", 42)`. -/
theorem c3_witness :
    validate_choices ⟨true, [Choice.str "Rock", Choice.str "Rock", Choice.intVal 42]⟩ =
      Except.error PyErr.valueErrorDuplicate :=
  c3_duplicate_before_type ⟨true, [Choice.str "Rock", Choice.str "Rock", Choice.intVal 42]⟩
    (by decide) (by decide) (by decide) (by decide)

/-- C4: for every validated choice set, the dominance map assigns to the
name at index `i` exactly the names at the positions
`(i-1) mod N, ..., (i-k) mod N`, in that order; in particular the derived
maps of the canonical 3-choice and 5-choice sets are the expected ones. -/
theorem c4_dominance_map (names : List String) (hv : validOptions names = true)
    (i : ℕ) (hi : i < names.length) :
    is_beaten_by names (names.getD i nullStr) = some (specDominanceList names i) ∧
    hierarchyEntries ["Rock", "Paper", "Scissors"] =
      [("Rock", ["Scissors"]), ("Paper", ["Rock"]), ("Scissors", ["Paper"])] ∧
    hierarchyEntries ["Rock", "Batman", "Paper", "Lizard", "Scissors"] =
      [("Rock", ["Scissors", "Lizard"]), ("Batman", ["Rock", "Scissors"]),
       ("Paper", ["Batman", "Rock"]), ("Lizard", ["Paper", "Batman"]),
       ("Scissors", ["Lizard", "Paper"])] := by
  obtain ⟨h3, hodd, hnd, -, -⟩ := valid_facts names hv
  refine ⟨?_, by decide, by decide⟩
  rw [getD_eq_get_of_lt names i hi, is_beaten_by_get names hnd i hi]
  rw [beatenList_eq names i hi, specDominanceList_eq names i hi]

/-- C4 witness: the general statement instantiated on the canonical
3-choice set at index 0. -/
theorem c4_witness :
    is_beaten_by ["Rock", "Paper", "Scissors"]
        ((["Rock", "Paper", "Scissors"]).getD 0 nullStr) =
      some (specDominanceList ["Rock", "Paper", "Scissors"] 0) :=
  (c4_dominance_map ["Rock", "Paper", "Scissors"] (by decide) 0 (by decide)).1

/-- C5: in every validated choice set each name defeats exactly `(N-1)/2`
names, is defeated by exactly `(N-1)/2` names, no name both defeats and is
defeated by the same name, and no name defeats itself. -/
theorem c5_balanced_tournament (names : List String) (hv : validOptions names = true)
    (c : String) (hc : c ∈ names) (d : String) :
    (names.toFinset.filter (fun e => defeats names c e = true)).card
        = (names.length - 1) / 2 ∧
    (names.toFinset.filter (fun e => defeats names e c = true)).card
        = (names.length - 1) / 2 ∧
    ¬(defeats names c d = true ∧ defeats names d c = true) ∧
    defeats names c c = false := by
  obtain ⟨h3, hodd, hnd, -, -⟩ := valid_facts names hv
  have hN : names.length = 2 * beatenCount names + 1 := by
    unfold beatenCount
    omega
  have hk : 1 ≤ beatenCount names := by
    unfold beatenCount
    omega
  obtain ⟨i, hi, hci⟩ := List.mem_iff_getElem.mp hc
  have hcd : names.getD i nullStr = c := by
    rw [List.getD_eq_getElem names nullStr hi, hci]
  rw [← hcd]
  refine ⟨card_defeats_getD names hnd hN hk i hi,
    card_defeated_getD names hnd hN hk i hi, ?_, defeats_self_eq_false names hnd hN hk i hi⟩
  rintro ⟨hcd1, hdc1⟩
  have hdmem : d ∈ names := by
    unfold defeats at hcd1
    rw [getD_eq_get_of_lt names i hi, is_beaten_by_get names hnd i hi] at hcd1
    simp only [decide_eq_true_eq] at hcd1
    rw [beatenList_eq names i hi] at hcd1
    obtain ⟨j, hj, hje⟩ := List.mem_map.mp hcd1
    rw [← hje]
    exact getD_mem_of_lt names _ (Nat.mod_lt _ (by omega))
  obtain ⟨i2, hi2, hdi⟩ := List.mem_iff_getElem.mp hdmem
  have hdd : names.getD i2 nullStr = d := by
    rw [List.getD_eq_getElem names nullStr hi2, hdi]
  rw [← hdd] at hcd1 hdc1
  have hcond1 := (defeats_getD_iff names hnd hN hk i i2 hi hi2).mp hcd1
  have hcond2 := (defeats_getD_iff names hnd hN hk i2 i hi2 hi).mp hdc1
  rcases mod_two_cases (i + names.length - i2) names.length (by omega) with
      ⟨a1, a2⟩ | ⟨a1, a2⟩ <;>
    rcases mod_two_cases (i2 + names.length - i) names.length (by omega) with
      ⟨b1, b2⟩ | ⟨b1, b2⟩ <;>
    omega

/-- C5 witness: the balance facts at `Rock` in the canonical 3-choice set,
tested against `Scissors`. -/
theorem c5_witness :
    ((["Rock", "Paper", "Scissors"]).toFinset.filter
        (fun e => defeats ["Rock", "Paper", "Scissors"] "Rock" e = true)).card
          = ((["Rock", "Paper", "Scissors"]).length - 1) / 2 ∧
    ((["Rock", "Paper", "Scissors"]).toFinset.filter
        (fun e => defeats ["Rock", "Paper", "Scissors"] e "Rock" = true)).card
          = ((["Rock", "Paper", "Scissors"]).length - 1) / 2 ∧
    ¬(defeats ["Rock", "Paper", "Scissors"] "Rock" "Scissors" = true ∧
        defeats ["Rock", "Paper", "Scissors"] "Scissors" "Rock" = true) ∧
    defeats ["Rock", "Paper", "Scissors"] "Rock" "Rock" = false :=
  c5_balanced_tournament ["Rock", "Paper", "Scissors"] (by decide) "Rock" (by decide) "Scissors"

/-- C6: outcome resolution is antisymmetric on every validated choice set:
for distinct in-set names exactly one of the two defeats directions holds,
and resolving one order gives WIN exactly when the swapped order gives
LOSE. -/
theorem c6_antisymmetric (names : List String) (hv : validOptions names = true)
    (a b : String) (ha : a ∈ names) (hb : b ∈ names) (hab : a ≠ b) :
    ((defeats names a b = true ∧ defeats names b a = false) ∨
      (defeats names b a = true ∧ defeats names a b = false)) ∧
    (resolveOutcome names a b = some Outcome.WIN ↔
      resolveOutcome names b a = some Outcome.LOSE) := by
  obtain ⟨h3, hodd, hnd, -, -⟩ := valid_facts names hv
  have hN : names.length = 2 * beatenCount names + 1 := by
    unfold beatenCount
    omega
  have hk : 1 ≤ beatenCount names := by
    unfold beatenCount
    omega
  obtain ⟨i, hi, hai⟩ := List.mem_iff_getElem.mp ha
  obtain ⟨i2, hi2, hbi⟩ := List.mem_iff_getElem.mp hb
  have hax : names.getD i nullStr = a := by
    rw [List.getD_eq_getElem names nullStr hi, hai]
  have hbx : names.getD i2 nullStr = b := by
    rw [List.getD_eq_getElem names nullStr hi2, hbi]
  have hii : i ≠ i2 := by
    intro he
    apply hab
    rw [← hax, ← hbx, he]
  rw [← hax, ← hbx]
  have hD := defeats_getD_iff names hnd hN hk i i2 hi hi2
  have hD2 := defeats_getD_iff names hnd hN hk i2 i hi2 hi
  have hone : ((1 ≤ (i + names.length - i2) % names.length ∧
        (i + names.length - i2) % names.length ≤ beatenCount names) ∧
      ¬(1 ≤ (i2 + names.length - i) % names.length ∧
        (i2 + names.length - i) % names.length ≤ beatenCount names)) ∨
      ((1 ≤ (i2 + names.length - i) % names.length ∧
        (i2 + names.length - i) % names.length ≤ beatenCount names) ∧
      ¬(1 ≤ (i + names.length - i2) % names.length ∧
        (i + names.length - i2) % names.length ≤ beatenCount names)) := by
    rcases mod_two_cases (i + names.length - i2) names.length (by omega) with
        ⟨a1, a2⟩ | ⟨a1, a2⟩ <;>
      rcases mod_two_cases (i2 + names.length - i) names.length (by omega) with
        ⟨b1, b2⟩ | ⟨b1, b2⟩ <;>
      omega
  have hm1iff := mem_beaten_iff names hnd hN hk i i2 hi hi2
  have hm2iff := mem_beaten_iff names hnd hN hk i2 i hi2 hi
  have hr1 := resolveOutcome_eq_of_some names (names.getD i nullStr) (names.getD i2 nullStr)
    (by rw [hax, hbx]; exact hab) (beatenList names i)
    (by rw [getD_eq_get_of_lt names i hi]; exact is_beaten_by_get names hnd i hi)
  have hr2 := resolveOutcome_eq_of_some names (names.getD i2 nullStr) (names.getD i nullStr)
    (by rw [hax, hbx]; exact fun he => hab he.symm) (beatenList names i2)
    (by rw [getD_eq_get_of_lt names i2 hi2]; exact is_beaten_by_get names hnd i2 hi2)
  rcases hone with ⟨hc1, hc2⟩ | ⟨hc1, hc2⟩
  · refine ⟨Or.inl ⟨hD.mpr hc1, bool_eq_false (fun hx => hc2 (hD2.mp hx))⟩, ?_⟩
    rw [hr1, hr2, if_pos (hm1iff.mpr hc1), if_neg (fun hm => hc2 (hm2iff.mp hm))]
    simp
  · refine ⟨Or.inr ⟨hD2.mpr hc1, bool_eq_false (fun hx => hc2 (hD.mp hx))⟩, ?_⟩
    rw [hr1, hr2, if_neg (fun hm => hc2 (hm1iff.mp hm)), if_pos (hm2iff.mpr hc1)]
    simp

/-- C6 witness: antisymmetry of Rock against Scissors in the canonical
3-choice set. -/
theorem c6_witness :
    ((defeats ["Rock", "Paper", "Scissors"] "Rock" "Scissors" = true ∧
        defeats ["Rock", "Paper", "Scissors"] "Scissors" "Rock" = false) ∨
      (defeats ["Rock", "Paper", "Scissors"] "Scissors" "Rock" = true ∧
        defeats ["Rock", "Paper", "Scissors"] "Rock" "Scissors" = false)) ∧
    (resolveOutcome ["Rock", "Paper", "Scissors"] "Rock" "Scissors" = some Outcome.WIN ↔
      resolveOutcome ["Rock", "Paper", "Scissors"] "Scissors" "Rock" = some Outcome.LOSE) :=
  c6_antisymmetric ["Rock", "Paper", "Scissors"] (by decide) "Rock" "Scissors"
    (by decide) (by decide) (by decide)

/-- C7: resolving a name of a validated choice set against itself is a
DRAW, a name never appears in its own defeated list, and against another
in-set name the result is a DRAW exactly when the two names are equal. -/
theorem c7_draw_iff_equal (names : List String) (hv : validOptions names = true)
    (x : String) (hx : x ∈ names) (y : String) (hy : y ∈ names) :
    resolveOutcome names x x = some Outcome.DRAW ∧
    defeats names x x = false ∧
    (resolveOutcome names x y = some Outcome.DRAW ↔ x = y) := by
  obtain ⟨h3, hodd, hnd, -, -⟩ := valid_facts names hv
  have hN : names.length = 2 * beatenCount names + 1 := by
    unfold beatenCount
    omega
  have hk : 1 ≤ beatenCount names := by
    unfold beatenCount
    omega
  obtain ⟨i, hi, hxi⟩ := List.mem_iff_getElem.mp hx
  have hxx : names.getD i nullStr = x := by
    rw [List.getD_eq_getElem names nullStr hi, hxi]
  have hdraw : resolveOutcome names x x = some Outcome.DRAW := by
    unfold resolveOutcome
    rw [if_pos rfl]
  refine ⟨hdraw, by rw [← hxx]; exact defeats_self_eq_false names hnd hN hk i hi, ?_⟩
  constructor
  · intro hres
    by_contra hxy
    have hr := resolveOutcome_eq_of_some names x y hxy (beatenList names i)
      (by rw [← hxx, getD_eq_get_of_lt names i hi]; exact is_beaten_by_get names hnd i hi)
    rw [hr] at hres
    by_cases hm : y ∈ beatenList names i
    · rw [if_pos hm] at hres
      cases hres
    · rw [if_neg hm] at hres
      cases hres
  · intro he
    rw [← he]
    exact hdraw

/-- C7 witness: the draw facts for Rock against Rock and against Paper in
the canonical 3-choice set. -/
theorem c7_witness :
    resolveOutcome ["Rock", "Paper", "Scissors"] "Rock" "Rock" = some Outcome.DRAW ∧
    defeats ["Rock", "Paper", "Scissors"] "Rock" "Rock" = false ∧
    (resolveOutcome ["Rock", "Paper", "Scissors"] "Rock" "Paper" = some Outcome.DRAW ↔
      ("Rock" : String) = "Paper") :=
  c7_draw_iff_equal ["Rock", "Paper", "Scissors"] (by decide) "Rock" (by decide)
    "Paper" (by decide)

/-! ### Key-map and hand-construction lemmas -/

lemma choice_map_keys (names : List String) :
    (choice_map names).map Prod.fst = choice_keys names := by
  unfold choice_map choice_keys
  rw [List.map_map]
  rfl

lemma reverse_map_keys (names : List String) :
    (reverse_choice_map names).map Prod.fst = names := by
  unfold reverse_choice_map choice_map
  rw [List.map_map, List.map_map]
  exact List.map_id names

lemma vc_isSome_of_key (names : List String) (c : String)
    (h : c ∈ choice_keys names) : (validate_choice names c).isSome = true := by
  unfold validate_choice
  rw [if_pos h]
  have hs := pyDictGet_isSome (choice_map names) c (by rw [choice_map_keys]; exact h)
  cases hx : pyDictGet (choice_map names) c with
  | none => rw [hx] at hs; cases hs
  | some nm => rfl

lemma vc_isSome_of_name (names : List String) (c : String)
    (h : c ∈ names) : (validate_choice names c).isSome = true := by
  by_cases hk2 : c ∈ choice_keys names
  · exact vc_isSome_of_key names c hk2
  · unfold validate_choice
    rw [if_neg hk2, if_pos h]
    have hs := pyDictGet_isSome (reverse_choice_map names) c
      (by rw [reverse_map_keys]; exact h)
    cases hx : pyDictGet (reverse_choice_map names) c with
    | none => rw [hx] at hs; cases hs
    | some key2 => rfl

lemma choice_map_lookup (names : List String) (hfu : (names.map firstUpper).Nodup)
    (n : String) (hn : n ∈ names) :
    pyDictGet (choice_map names) (keyStr n) = some n := by
  apply pyDictGet_pairs
  · rw [choice_map_keys]
    unfold choice_keys
    have hrw : names.map keyStr = (names.map firstUpper).map (fun c => String.mk [c]) := by
      rw [List.map_map]
      rfl
    rw [hrw]
    refine List.Nodup.map ?_ hfu
    intro a b he
    have hd : ([a] : List Char) = [b] := congrArg String.data he
    exact (List.cons.injEq a [] b []).mp hd |>.1
  · exact List.mem_map_of_mem _ hn

lemma reverse_map_lookup (names : List String) (hnd : names.Nodup)
    (n : String) (hn : n ∈ names) :
    pyDictGet (reverse_choice_map names) n = some (keyStr n) := by
  apply pyDictGet_pairs
  · rw [reverse_map_keys]
    exact hnd
  · exact List.mem_map_of_mem _ (List.mem_map_of_mem _ hn)

lemma validate_choice_name_mem (names : List String) (c : String) (h : HandData)
    (he : validate_choice names c = some h) : h.name ∈ names := by
  unfold validate_choice at he
  by_cases hk2 : c ∈ choice_keys names
  · rw [if_pos hk2] at he
    cases hx : pyDictGet (choice_map names) c with
    | none => rw [hx] at he; cases he
    | some nm =>
      rw [hx] at he
      simp only [Option.map_some'] at he
      cases he
      have hmem := pyDictGet_mem _ _ _ hx
      obtain ⟨m, hm, hpair⟩ := List.mem_map.mp hmem
      have hp2 : m = nm := congrArg Prod.snd hpair
      rw [← hp2]
      exact hm
  · rw [if_neg hk2] at he
    by_cases hc2 : c ∈ names
    · rw [if_pos hc2] at he
      cases hx : pyDictGet (reverse_choice_map names) c with
      | none => rw [hx] at he; cases he
      | some key2 =>
        rw [hx] at he
        simp only [Option.map_some'] at he
        cases he
        exact hc2
    · rw [if_neg hc2] at he
      cases he

lemma hierarchy_lookup_isSome (names : List String) (c : String) (hc : c ∈ names) :
    (pyDictGet (hierarchyEntries names) c).isSome = true := by
  apply pyDictGet_isSome
  unfold hierarchyEntries
  rw [hierarchyAux_keys]
  exact hc

/-- C8: constructing a hand fails (the `ValueError` branch of
`Hand.validate_choice`) precisely when the supplied string is neither a
name of the validated choice set nor one of its selection keys. -/
theorem c8_unknown_choice (names : List String) (hv : validOptions names = true)
    (c : String) :
    validate_choice names c = none ↔ (c ∉ names ∧ c ∉ choice_keys names) := by
  constructor
  · intro h
    constructor
    · intro hc
      have hs := vc_isSome_of_name names c hc
      rw [h] at hs
      cases hs
    · intro hc
      have hs := vc_isSome_of_key names c hc
      rw [h] at hs
      cases hs
  · rintro ⟨h1, h2⟩
    unfold validate_choice
    rw [if_neg h2, if_neg h1]

/-- C8 witness: in the canonical 3-choice set, the string `Banana` is
rejected exactly because it is neither a name nor a selection key. -/
theorem c8_witness :
    validate_choice ["Rock", "Paper", "Scissors"] "Banana" = none ↔
      ("Banana" ∉ ["Rock", "Paper", "Scissors"] ∧
        "Banana" ∉ choice_keys ["Rock", "Paper", "Scissors"]) :=
  c8_unknown_choice ["Rock", "Paper", "Scissors"] (by decide) "Banana"

/-- C9: on every validated choice set the two selection-key maps are
mutually inverse: composing them in either order is the identity on names
and on keys, with `reverse_choice_map` sending each name to its uppercased
first character and `choice_map` sending that character back. -/
theorem c9_inverse_maps (names : List String) (hv : validOptions names = true)
    (n : String) (hn : n ∈ names) (key : String) (hkey : key ∈ choice_keys names) :
    (pyDictGet (reverse_choice_map names) n).bind (pyDictGet (choice_map names))
        = some n ∧
    (pyDictGet (choice_map names) key).bind (pyDictGet (reverse_choice_map names))
        = some key ∧
    pyDictGet (reverse_choice_map names) n = some (keyStr n) ∧
    pyDictGet (choice_map names) (keyStr n) = some n := by
  obtain ⟨-, -, hnd, hfu, -⟩ := valid_facts names hv
  have h1 := reverse_map_lookup names hnd n hn
  have h2 := choice_map_lookup names hfu n hn
  obtain ⟨m, hm, hkm⟩ := List.mem_map.mp hkey
  refine ⟨?_, ?_, h1, h2⟩
  · rw [h1]
    exact h2
  · rw [← hkm, choice_map_lookup names hfu m hm]
    exact reverse_map_lookup names hnd m hm

/-- C9 witness: the inverse-map facts for the name `Rock` and the key `R`
of the canonical 3-choice set. -/
theorem c9_witness :
    (pyDictGet (reverse_choice_map ["Rock", "Paper", "Scissors"]) "Rock").bind
        (pyDictGet (choice_map ["Rock", "Paper", "Scissors"])) = some "Rock" ∧
    (pyDictGet (choice_map ["Rock", "Paper", "Scissors"]) "R").bind
        (pyDictGet (reverse_choice_map ["Rock", "Paper", "Scissors"])) = some "R" ∧
    pyDictGet (reverse_choice_map ["Rock", "Paper", "Scissors"]) "Rock"
        = some (keyStr "Rock") ∧
    pyDictGet (choice_map ["Rock", "Paper", "Scissors"]) (keyStr "Rock") = some "Rock" :=
  c9_inverse_maps ["Rock", "Paper", "Scissors"] (by decide) "Rock" (by decide)
    "R" (by decide)

/-- C10: after the factory rewires `is_beaten_by` to a list of `Hand`
objects, `Hand.beats` on two factory-produced hands raises the `TypeError`
of subscripting a list with a string, whereas on two directly constructed
hands - whose `is_beaten_by` is still the name-keyed dict - it succeeds. -/
theorem c10_factory_breaks_beats (names : List String) (hv : validOptions names = true)
    (a b : String) (ha : a ∈ names) (hb : b ∈ names)
    (h1 h2 g1 g2 : HandObj)
    (e1 : factoryHand names a = some h1) (e2 : factoryHand names b = some h2)
    (d1 : mkHand names a = some g1) (d2 : mkHand names b = some g2) :
    hand_beats h1 h2 = Except.error PyExn.typeError ∧ (hand_beats g1 g2).isOk = true := by
  constructor
  · unfold factoryHand at e2
    cases hm : mkHand names b with
    | none => rw [hm] at e2; cases e2
    | some g =>
      rw [hm] at e2
      simp only [Option.map_some'] at e2
      cases e2
      rfl
  · unfold mkHand at d1 d2
    cases hv1 : validate_choice names a with
    | none => rw [hv1] at d1; cases d1
    | some hd1 =>
      rw [hv1] at d1
      simp only [Option.map_some'] at d1
      cases d1
      cases hv2 : validate_choice names b with
      | none => rw [hv2] at d2; cases d2
      | some hd2 =>
        rw [hv2] at d2
        simp only [Option.map_some'] at d2
        cases d2
        have hmem : hd1.name ∈ names := validate_choice_name_mem names a hd1 hv1
        have hsome := hierarchy_lookup_isSome names hd1.name hmem
        unfold hand_beats
        cases hx : pyDictGet (hierarchyEntries names) hd1.name with
        | none => rw [hx] at hsome; cases hsome
        | some l =>
          simp only [is_beaten_by]
          rw [hx]
          rfl

/-- C10 witness: the concrete factory hands for Rock and Paper fail in
`beats` with the list-subscript `TypeError`, while the directly
constructed hands succeed. -/
theorem c10_witness :
    hand_beats ⟨"Rock", "R", BeatenByField.listVal ["Scissors"]⟩
        ⟨"Paper", "P", BeatenByField.listVal ["Rock"]⟩ = Except.error PyExn.typeError ∧
    (hand_beats
        ⟨"Rock", "R", BeatenByField.dictVal (hierarchyEntries ["Rock", "Paper", "Scissors"])⟩
        ⟨"Paper", "P", BeatenByField.dictVal (hierarchyEntries ["Rock", "Paper", "Scissors"])⟩
      ).isOk = true :=
  c10_factory_breaks_beats ["Rock", "Paper", "Scissors"] (by decide) "Rock" "Paper"
    (by decide) (by decide) _ _ _ _ (by decide) (by decide) (by decide) (by decide)

end RSP
